import Mathlib

/-!
Verification of the Chain Analytics Engine of `option_signals_v2`.

The Python analyzers under `src/analytics/` are shallowly embedded below.
A chain snapshot (a Python dict from strike to per-leg records) is an
association list in insertion order; strikes, open interest and implied
volatility are embedded as rationals (the Python values are ints/floats,
and every computation in the analyzers is exact field arithmetic except
`np.std`, whose square root is handled where it appears).  A leg absent
from a strike contributes open interest 0 and IV 0, exactly as the
chained `.get` accesses with default 0 in the source do.
-/

namespace OptionSignals

/-- One option leg record: `open_interest` and `IV` fields of a `CE`/`PE`
dict in a chain snapshot.  A missing `IV` key reads as 0 in the source, so
the field is total here. -/
structure Leg where
  open_interest : ℚ
  IV : ℚ
deriving DecidableEq, Repr

/-- Per-strike record: the optional `CE` and `PE` legs. -/
structure StrikeData where
  CE : Option Leg
  PE : Option Leg
deriving DecidableEq, Repr

/-- A chain snapshot: Python dict from strike to leg records, kept in
insertion order as an association list. -/
abbrev Chain := List (ℚ × StrikeData)

/-- Reading of the CE open_interest via the chained `.get` with default 0. -/
def StrikeData.ceOI (d : StrikeData) : ℚ := (d.CE.map Leg.open_interest).getD 0

/-- Reading of the PE open_interest via the chained `.get` with default 0. -/
def StrikeData.peOI (d : StrikeData) : ℚ := (d.PE.map Leg.open_interest).getD 0

/-- Reading of the CE IV via the chained `.get` with default 0. -/
def StrikeData.ceIV (d : StrikeData) : ℚ := (d.CE.map Leg.IV).getD 0

/-- Reading of the PE IV via the chained `.get` with default 0. -/
def StrikeData.peIV (d : StrikeData) : ℚ := (d.PE.map Leg.IV).getD 0

/-- `chain_data[strike]` (a present key; absent keys read as an empty
record, which every consumer treats as zero legs). -/
def Chain.lookup (chain : Chain) (k : ℚ) : StrikeData :=
  ((chain.find? (fun p => p.1 = k)).map Prod.snd).getD ⟨none, none⟩

/-- `sorted(chain_data.keys())`. -/
def Chain.strikes (chain : Chain) : List ℚ :=
  (chain.map Prod.fst).insertionSort (fun a b => a ≤ b)

/-- Combined open interest of one strike record (`ce_oi + pe_oi`). -/
def StrikeData.totalOI (d : StrikeData) : ℚ := d.ceOI + d.peOI

/-- The data-model invariant on snapshots delivered by the acquisition
collaborator: all open-interest and IV values are non-negative. -/
def Chain.WellFormed (chain : Chain) : Prop :=
  ∀ p ∈ chain, 0 ≤ p.2.ceOI ∧ 0 ≤ p.2.peOI ∧ 0 ≤ p.2.ceIV ∧ 0 ≤ p.2.peIV

/-- `np.mean` over a list (every call site in the source guards against
the empty list, where NumPy would yield nan; here the unreached value is
0). -/
def npMean (xs : List ℚ) : ℚ := xs.sum / xs.length

/-- `np.std` squared: the population variance of a list.  The source's
standard deviation is the real square root of this rational. -/
def npVar (xs : List ℚ) : ℚ := npMean (xs.map (fun x => (x - npMean xs) ^ 2))

/- ===== OIMigrationAnalyzer (src/analytics/oi_migration_analyzer.py) ===== -/

/-- One history step of `_track_migration_trend`:
`self.migration_history.append(current_max)` followed by
`if len(self.migration_history) > self.track_period: self.migration_history.pop(0)`.
`pop(0)` removes the head, i.e. the oldest record. -/
def trackStep {α : Type} (track_period : ℕ) (history : List α) (record : α) : List α :=
  if track_period < (history ++ [record]).length then (history ++ [record]).tail
  else history ++ [record]

/-- The `migration_history` of an `OIMigrationAnalyzer` after a sequence of
`analyze_migration` calls, starting from the empty history of `__init__`. -/
def migrationHistory {α : Type} (track_period : ℕ) (records : List α) : List α :=
  records.foldl (trackStep track_period) []

/-- Slope-fit of `_calculate_slope`: x-values are `range(len(values))`. -/
def sumX (n : ℕ) : ℚ := ((List.range n).map (fun (i : ℕ) => (i : ℚ))).sum

/-- Sum of squared x-values in `_calculate_slope`. -/
def sumX2 (n : ℕ) : ℚ := ((List.range n).map (fun (i : ℕ) => ((i : ℚ)) ^ 2)).sum

/-- `sum(x[i] * y[i] for i in range(n))`. -/
def sumXY (values : List ℚ) : ℚ :=
  (List.zipWith (fun (i : ℕ) (v : ℚ) => (i : ℚ) * v) (List.range values.length) values).sum

/-- `_calculate_slope`: ordinary least squares of value against index. -/
def calculateSlope (values : List ℚ) : ℚ :=
  if values.length < 2 then 0
  else
    let n : ℚ := values.length
    (n * sumXY values - sumX values.length * values.sum) /
      (n * sumX2 values.length - sumX values.length ^ 2)

/- ===== TimeDecayAnalyzer (src/analytics/time_decay_analyzer.py) ===== -/

/-- A `datetime.time` as seconds after midnight; Python `time` comparison
is lexicographic on (hour, minute, second), which is exactly comparison of
the second counts. -/
def tm (h m : ℕ) : ℕ := h * 3600 + m * 60

/-- The discrete market phases returned by `_get_time_phase`. -/
inductive TimePhase where
  | OPENING_PHASE
  | MID_MORNING
  | SELLER_COMFORT_WINDOW
  | POST_LUNCH
  | GAMMA_GAME_PHASE
  | CLOSED
deriving DecidableEq, Repr

/-- `_get_time_phase` on a time of day given in seconds after midnight. -/
def getTimePhase (t : ℕ) : TimePhase :=
  if tm 9 15 ≤ t ∧ t < tm 10 30 then .OPENING_PHASE
  else if tm 10 30 ≤ t ∧ t < tm 11 30 then .MID_MORNING
  else if tm 11 30 ≤ t ∧ t < tm 13 30 then .SELLER_COMFORT_WINDOW
  else if tm 13 30 ≤ t ∧ t < tm 14 30 then .POST_LUNCH
  else if tm 14 30 ≤ t ∧ t ≤ tm 15 30 then .GAMMA_GAME_PHASE
  else .CLOSED

/- == ExpiryAlignmentAnalyzer (src/analytics/expiry_alignment_analyzer.py) == -/

/-- A support/resistance entry of `_identify_supports` /
`_identify_resistances`: dict keys `strike`, `strength`, and the two raw
leg open interests. -/
structure Level where
  strike : ℚ
  strength : ℚ
  pe_oi : ℚ
  ce_oi : ℚ
deriving DecidableEq, Repr

/-- `_identify_supports`: per-strike candidates in dict iteration order,
then a stable sort by strength descending and truncation to 5. -/
def identifySupports (chain : Chain) : List Level :=
  let supports := chain.filterMap (fun p =>
    let pe_oi := p.2.peOI
    let ce_oi := p.2.ceOI
    if pe_oi > ce_oi * 1.5 ∧ pe_oi > 100000 then
      some ⟨p.1, min (pe_oi / (ce_oi + 1)) 5 / 5, pe_oi, ce_oi⟩
    else none)
  (supports.insertionSort (fun a b => b.strength ≤ a.strength)).take 5

/-- `_identify_resistances`: the mirror image with the call leg dominant. -/
def identifyResistances (chain : Chain) : List Level :=
  let resistances := chain.filterMap (fun p =>
    let ce_oi := p.2.ceOI
    let pe_oi := p.2.peOI
    if ce_oi > pe_oi * 1.5 ∧ ce_oi > 100000 then
      some ⟨p.1, min (ce_oi / (pe_oi + 1)) 5 / 5, pe_oi, ce_oi⟩
    else none)
  (resistances.insertionSort (fun a b => b.strength ≤ a.strength)).take 5

/-- A thresholded magnet of `_identify_magnets` (alignment context):
dict keys `strike`, `total_oi`, `confidence`. -/
structure AlignMagnet where
  strike : ℚ
  total_oi : ℚ
  confidence : ℚ
deriving DecidableEq, Repr

/-- `_identify_magnets`: total-OI threshold 2,000,000, sorted by total OI
descending, top 3. -/
def identifyMagnets (chain : Chain) : List AlignMagnet :=
  let magnets := chain.filterMap (fun p =>
    let total_oi := p.2.totalOI
    if total_oi > 2000000 then
      some ⟨p.1, total_oi, min (total_oi / 5000000) 1.0⟩
    else none)
  (magnets.insertionSort (fun a b => b.total_oi ≤ a.total_oi)).take 3

/-- Tag of a matched support/resistance pair. -/
inductive AnchorType where
  | SWING_ANCHOR
  | GAMMA_ONLY
deriving DecidableEq, Repr

/-- One entry of `aligned_supports` / `aligned_resistances`. -/
structure AlignedLevel where
  strike : ℚ
  current_strength : ℚ
  next_strength : ℚ
  alignment_score : ℚ
  type : AnchorType
deriving DecidableEq, Repr

/-- The `aligned_supports` list of `_analyze_support_alignment`: the nested
loop over current then next supports, keeping pairs within 50 points. -/
def alignedSupports (current next_exp : Chain) : List AlignedLevel :=
  (identifySupports current).flatMap (fun cs =>
    ((identifySupports next_exp).filter (fun ns => |cs.strike - ns.strike| ≤ 50)).map
      (fun ns =>
        ⟨cs.strike, cs.strength, ns.strength, min cs.strength ns.strength,
         if ns.strength > 0.7 then .SWING_ANCHOR else .GAMMA_ONLY⟩))

/-- The `aligned_resistances` list of `_analyze_resistance_alignment`. -/
def alignedResistances (current next_exp : Chain) : List AlignedLevel :=
  (identifyResistances current).flatMap (fun cr =>
    ((identifyResistances next_exp).filter (fun nr => |cr.strike - nr.strike| ≤ 50)).map
      (fun nr =>
        ⟨cr.strike, cr.strength, nr.strength, min cr.strength nr.strength,
         if nr.strength > 0.7 then .SWING_ANCHOR else .GAMMA_ONLY⟩))

/-- One entry of `aligned_magnets` (the source dict key `alignment_ratio`
is the field `alignment_frac` here, a name change only). -/
structure AlignedMagnet where
  strike : ℚ
  current_strength : ℚ
  next_strength : ℚ
  alignment_frac : ℚ
  confidence : ℚ
deriving DecidableEq, Repr

/-- The `aligned_magnets` list of `_analyze_magnet_alignment`. -/
def alignedMagnets (current next_exp : Chain) : List AlignedMagnet :=
  (identifyMagnets current).flatMap (fun cm =>
    ((identifyMagnets next_exp).filter (fun nm => |cm.strike - nm.strike| ≤ 50)).map
      (fun nm =>
        ⟨cm.strike, cm.total_oi, nm.total_oi,
         min cm.total_oi nm.total_oi / max cm.total_oi nm.total_oi,
         min cm.confidence nm.confidence⟩))

/- ===== MagnetDetector (src/analytics/magnet_detector.py) ===== -/

/-- The `total_oi` list of `find_magnets_and_gaps`: combined OI per strike
in ascending strike order. -/
def totalOIs (chain : Chain) : List ℚ :=
  chain.strikes.map (fun s => (chain.lookup s).totalOI)

/-- The `window_oi` slice `total_oi[i-w : i+w+1]` of `_find_local_maxima`
(the loop only visits `w ≤ i < len - w`, where the slice is full). -/
def windowOI (chain : Chain) (w i : ℕ) : List ℚ :=
  ((totalOIs chain).drop (i - w)).take (2 * w + 1)

/-- `np.mean(window_oi)` at position `i`. -/
def windowMean (chain : Chain) (w i : ℕ) : ℚ := npMean (windowOI chain w i)

/-- The square of `np.std(window_oi)` at position `i` (population
variance). -/
def windowVar (chain : Chain) (w i : ℕ) : ℚ := npVar (windowOI chain w i)

/-- The magnet condition `current_oi > window_mean + 2 * window_std` of
`_find_local_maxima`, written without the square root: since the standard
deviation is `Real.sqrt var` with `var ≥ 0`, the comparison is equivalent
to `oi - mean > 0` together with `(oi - mean)^2 > 4 * var` (this
equivalence is the lemma `gt_add_two_sqrt_iff` below). -/
def magnetCond (oi mean var : ℚ) : Prop :=
  0 < oi - mean ∧ 4 * var < (oi - mean) ^ 2

instance (oi mean var : ℚ) : Decidable (magnetCond oi mean var) := by
  unfold magnetCond; infer_instance

/-- A magnet dict of `_find_local_maxima`.  The source key `z_score`
holds `(oi - mean) / std` when `std > 0` and `0` otherwise; since every
appended magnet has `oi - mean > 0`, that z-score is positive and is
recovered from the field `z_sq` here as its real square root
(`z_score = Real.sqrt z_sq`); squaring is strictly monotone on the
positives, so ordering by `z_sq` is ordering by `z_score`. -/
structure Magnet where
  strike : ℚ
  total_oi : ℚ
  z_sq : ℚ
  relative_strength : ℚ
deriving DecidableEq, Repr

/-- The magnets appended by the loop of `_find_local_maxima`, before the
final sort and truncation. -/
def magnetCandidates (chain : Chain) (w : ℕ) : List Magnet :=
  let strikes := chain.strikes
  let total_oi := totalOIs chain
  (List.range' w (strikes.length - 2 * w)).filterMap (fun i =>
    let current_oi := total_oi.getD i 0
    let window_mean := windowMean chain w i
    let window_var := windowVar chain w i
    if magnetCond current_oi window_mean window_var then
      some ⟨strikes.getD i 0, current_oi,
            (if 0 < window_var then (current_oi - window_mean) ^ 2 / window_var else 0),
            (if 0 < window_mean then current_oi / window_mean else 1)⟩
    else none)

/-- `_find_local_maxima`: the candidates sorted by z-score descending
(equivalently by `z_sq` descending), top 5. -/
def findLocalMaxima (chain : Chain) (w : ℕ) : List Magnet :=
  ((magnetCandidates chain w).insertionSort (fun a b => b.z_sq ≤ a.z_sq)).take 5

/-- A gap dict of `_find_low_oi_gaps`; the source key `oi_ratio` is the
field `oi_frac` here (name change only). -/
structure Gap where
  from_strike : ℚ
  to_strike : ℚ
  avg_oi : ℚ
  oi_frac : ℚ
  strikes_in_gap : ℕ
deriving DecidableEq, Repr

/-- `_find_low_oi_gaps` (its `spot_price` argument is unused in the
source body and omitted here): adjacent pairs of magnets sorted by
strike, a gap when the interior mean OI is below 0.3 of the bounding
magnets' average OI. -/
def findLowOIGaps (chain : Chain) (magnets : List Magnet) : List Gap :=
  let strikes := chain.strikes
  let total_oi := totalOIs chain
  let sorted_magnets := magnets.insertionSort (fun a b => a.strike ≤ b.strike)
  (sorted_magnets.zip sorted_magnets.tail).filterMap (fun pr =>
    let mag1 := pr.1
    let mag2 := pr.2
    let idx1 := strikes.indexOf mag1.strike
    let idx2 := strikes.indexOf mag2.strike
    let gap_oi_values := (total_oi.drop (idx1 + 1)).take (idx2 - (idx1 + 1))
    let gap_strikes := (strikes.drop (idx1 + 1)).take (idx2 - (idx1 + 1))
    if gap_oi_values ≠ [] then
      let avg_gap_oi := npMean gap_oi_values
      let avg_magnet_oi := (mag1.total_oi + mag2.total_oi) / 2
      if avg_gap_oi < 0.3 * avg_magnet_oi then
        some ⟨mag1.strike, mag2.strike, avg_gap_oi, avg_gap_oi / avg_magnet_oi,
              gap_strikes.length⟩
      else none
    else none)

/-- Modelled from the spec: `_is_spot_in_gap` is called by
`find_magnets_and_gaps` but its body is missing from the source file.
Spec: true iff spot lies strictly between some gap's bounds. -/
def isSpotInGap (spot_price : ℚ) (gaps : List Gap) : Bool :=
  gaps.any (fun g => decide (g.from_strike < spot_price ∧ spot_price < g.to_strike))

/-- Modelled from the spec: `_find_nearest_magnet` is called by
`find_magnets_and_gaps` but its body is missing from the source file.
Spec: the magnet minimizing absolute strike distance to spot, ties broken
by first occurrence in input order (none when there are no magnets). -/
def findNearestMagnet (spot_price : ℚ) : List Magnet → Option Magnet
  | [] => none
  | m :: ms =>
    match findNearestMagnet spot_price ms with
    | none => some m
    | some b =>
      if |b.strike - spot_price| < |m.strike - spot_price| then some b else some m

/-- The result dict of `find_magnets_and_gaps`. -/
structure MagnetGapResult where
  magnets : List Magnet
  gaps : List Gap
  spot_in_gap : Bool
  nearest_magnet : Option Magnet
deriving DecidableEq, Repr

/-- `find_magnets_and_gaps` with window half-width `w`
(`self.window_size`, default 5). -/
def findMagnetsAndGaps (chain : Chain) (spot_price : ℚ) (w : ℕ) : MagnetGapResult :=
  let magnets := findLocalMaxima chain w
  let gaps := findLowOIGaps chain magnets
  ⟨magnets, gaps, isSpotInGap spot_price gaps, findNearestMagnet spot_price magnets⟩

/- ===== TimeDecayAnalyzer: pinning pressure ===== -/

/-- A `nearby_strikes` entry of `_calculate_pinning_pressure`. -/
structure NearbyStrike where
  strike : ℚ
  total_oi : ℚ
  distance : ℚ
deriving DecidableEq, Repr

/-- The result dict of `_calculate_pinning_pressure`; the `strong_pin`
key is present only on the high-OI branch, hence an `Option` here. -/
structure PinningResult where
  pressure : ℚ
  target_strikes : List ℚ
  strong_pin : Option Bool
deriving DecidableEq, Repr

/-- `_calculate_pinning_pressure`. -/
def calculatePinningPressure (chain : Chain) (spot_price time_into_session : ℚ) :
    PinningResult :=
  if time_into_session < 0.8 then ⟨0.3, [], none⟩
  else
    let nearby_strikes := chain.filterMap (fun p =>
      if |p.1 - spot_price| < 100 then
        let total_oi := p.2.totalOI
        if total_oi > 1000000 then some (⟨p.1, total_oi, |p.1 - spot_price|⟩ : NearbyStrike)
        else none
      else none)
    let nearby_sorted := nearby_strikes.insertionSort (fun a b => a.distance ≤ b.distance)
    if nearby_sorted ≠ [] then
      ⟨min (0.3 + (time_into_session - 0.8) * 2) 0.9,
       (nearby_sorted.take 3).map NearbyStrike.strike,
       some (decide (2 ≤ nearby_sorted.length))⟩
    else ⟨0.2, [], none⟩

/- ===== IVSkewEnhanced (src/analytics/iv_skew_enhanced.py) ===== -/

/-- `np.gradient` of a one-dimensional sequence: one-sided differences at
the ends, central differences inside.  NumPy rejects inputs of length
less than 2; the singleton case is given the value `[0]` here and is not
reached by any statement below. -/
def npGradient (xs : List ℚ) : List ℚ :=
  match xs with
  | [] => []
  | [_] => [0]
  | a :: b :: rest =>
    (b - a) ::
      (List.zipWith (fun p q => (q - p) / 2) (a :: b :: rest) rest ++
        [xs.getD (xs.length - 1) 0 - xs.getD (xs.length - 2) 0])

/-- The `left_ivs` list of `_calculate_iv_gradient`: for the (up to) five
strikes below the ATM index, the call IV of every strike whose `CE` leg is
present — including legs whose IV is 0. -/
def leftIVs (chain : Chain) (atm_strike : ℚ) : List ℚ :=
  let strikes := chain.strikes
  let atm_idx := strikes.indexOf atm_strike
  ((strikes.take atm_idx).drop (atm_idx - 5)).filterMap
    (fun s => ((chain.lookup s).CE).map Leg.IV)

/-- The `right_ivs` list of `_calculate_iv_gradient`: put IVs of the (up
to) five strikes above the ATM index whose `PE` leg is present. -/
def rightIVs (chain : Chain) (atm_strike : ℚ) : List ℚ :=
  let strikes := chain.strikes
  let atm_idx := strikes.indexOf atm_strike
  ((strikes.drop (atm_idx + 1)).take 5).filterMap
    (fun s => ((chain.lookup s).PE).map Leg.IV)

/-- The result dict of `_calculate_iv_gradient`. -/
structure IVGradientResult where
  left_steepness : ℚ
  right_steepness : ℚ
  asymmetry : ℚ
deriving DecidableEq, Repr

/-- `_calculate_iv_gradient` (the gradient of a non-empty list is
non-empty, so the source's `if left_gradient` mean guard is always
taken). -/
def calculateIVGradient (chain : Chain) (atm_strike : ℚ) : IVGradientResult :=
  let left_ivs := leftIVs chain atm_strike
  let right_ivs := rightIVs chain atm_strike
  let left_gradient := if left_ivs = [] then [0] else npGradient left_ivs
  let right_gradient := if right_ivs = [] then [0] else npGradient right_ivs
  ⟨npMean left_gradient, npMean right_gradient,
   if left_ivs ≠ [] ∧ right_ivs ≠ [] then |npMean left_ivs - npMean right_ivs| else 0⟩

/-- The claim's reading of `iv_gradient`, following the spec sentence that
zero IVs are excluded from every mean: the asymmetry computed over the
positive IVs only.  Kept separate from `calculateIVGradient` (which
follows the source) for the comparison below. -/
def asymmetrySpec (chain : Chain) (atm_strike : ℚ) : ℚ :=
  let left_pos := (leftIVs chain atm_strike).filter (fun v => 0 < v)
  let right_pos := (rightIVs chain atm_strike).filter (fun v => 0 < v)
  if left_pos ≠ [] ∧ right_pos ≠ [] then |npMean left_pos - npMean right_pos| else 0

/-- The `surrounding_strikes` of `_analyze_magnet_skew`: strikes at index
distance at most 2 from the magnet's index, the magnet itself excluded. -/
def surroundingStrikes (chain : Chain) (magnet : ℚ) : List ℚ :=
  let strikes := chain.strikes
  let magnet_idx := strikes.indexOf magnet
  ((List.range' (magnet_idx - 2)
      (min strikes.length (magnet_idx + 3) - (magnet_idx - 2))).filter
    (fun idx => idx ≠ magnet_idx)).map (fun idx => strikes.getD idx 0)

/-- The `surrounding_ce_iv` list of `_analyze_magnet_skew`: call IVs of
surrounding strikes whose `CE` leg is present — zero IVs included. -/
def surroundingCEIVs (chain : Chain) (magnet : ℚ) : List ℚ :=
  (surroundingStrikes chain magnet).filterMap (fun s => ((chain.lookup s).CE).map Leg.IV)

/-- The `surrounding_pe_iv` list of `_analyze_magnet_skew`. -/
def surroundingPEIVs (chain : Chain) (magnet : ℚ) : List ℚ :=
  (surroundingStrikes chain magnet).filterMap (fun s => ((chain.lookup s).PE).map Leg.IV)

/-- The `iv_stability` classification of `_analyze_magnet_skew`. -/
inductive Stability where
  | STABLE
  | VOLATILE
deriving DecidableEq, Repr

/-- One value of the `magnet_skew` dict (source keys `ce_iv_ratio`,
`pe_iv_ratio`, `iv_stability`; the first two are the `_frac` fields
here, a name change only). -/
structure MagnetSkewEntry where
  ce_iv_frac : ℚ
  pe_iv_frac : ℚ
  iv_stability : Stability
deriving DecidableEq, Repr

/-- `_analyze_magnet_skew`, as an association list keyed by magnet
strike. -/
def analyzeMagnetSkew (chain : Chain) (magnet_strikes : List ℚ) :
    List (ℚ × MagnetSkewEntry) :=
  magnet_strikes.filterMap (fun magnet =>
    if (chain.map Prod.fst).contains magnet then
      let magnet_ce_iv := (chain.lookup magnet).ceIV
      let magnet_pe_iv := (chain.lookup magnet).peIV
      let surrounding_ce_iv := surroundingCEIVs chain magnet
      let surrounding_pe_iv := surroundingPEIVs chain magnet
      let avg_surrounding_ce := if surrounding_ce_iv ≠ [] then npMean surrounding_ce_iv else 0
      let avg_surrounding_pe := if surrounding_pe_iv ≠ [] then npMean surrounding_pe_iv else 0
      some (magnet,
        ⟨if 0 < avg_surrounding_ce then magnet_ce_iv / avg_surrounding_ce else 1,
         if 0 < avg_surrounding_pe then magnet_pe_iv / avg_surrounding_pe else 1,
         if magnet_ce_iv < avg_surrounding_ce * 0.9 ∧ magnet_pe_iv < avg_surrounding_pe * 0.9
         then .STABLE else .VOLATILE⟩)
    else none)

/-- The `skew_type` classification of `_analyze_one_sided_skew`. -/
inductive SkewType where
  | CE_FEAR
  | PE_FEAR
  | BALANCED
deriving DecidableEq, Repr

/-- One value of the `skew_data` dict of `_analyze_one_sided_skew`
(source key `skew_ratio` is the field `skew_frac` here, a name change
only). -/
structure SkewEntry where
  ce_iv : ℚ
  pe_iv : ℚ
  skew_frac : ℚ
  skew_type : SkewType
  fear_strength : ℚ
deriving DecidableEq, Repr

/-- `_analyze_one_sided_skew`, as an association list keyed by strike:
the (up to) three strikes around the ATM index, kept only when both legs
have positive IV. -/
def analyzeOneSidedSkew (chain : Chain) (atm_strike : ℚ) : List (ℚ × SkewEntry) :=
  let strikes := chain.strikes
  let atm_idx := strikes.indexOf atm_strike
  (List.range' (atm_idx - 1)
      (min strikes.length (atm_idx + 2) - (atm_idx - 1))).filterMap (fun idx =>
    let strike := strikes.getD idx 0
    let ce_iv := (chain.lookup strike).ceIV
    let pe_iv := (chain.lookup strike).peIV
    if 0 < ce_iv ∧ 0 < pe_iv then
      let sfrac := ce_iv / pe_iv
      some (strike,
        ⟨ce_iv, pe_iv, sfrac,
         if sfrac > 1.2 then .CE_FEAR else if sfrac < 0.8 then .PE_FEAR else .BALANCED,
         |sfrac - 1|⟩)
    else none)

/-- The pooled `window_ivs` of `_find_iv_crush_pockets` at index `i`: for
each of the five strikes around `i`, the call IV if positive then the put
IV if positive. -/
def crushWindowIVs (chain : Chain) (i : ℕ) : List ℚ :=
  let strikes := chain.strikes
  ((strikes.drop (i - 2)).take 5).flatMap (fun s =>
    let ce_iv := (chain.lookup s).ceIV
    let pe_iv := (chain.lookup s).peIV
    (if 0 < ce_iv then [ce_iv] else []) ++ (if 0 < pe_iv then [pe_iv] else []))

/-- The crush condition
`current_ce_iv < window_avg - window_std and current_pe_iv < window_avg - window_std`
of `_find_iv_crush_pockets`, written without the square root exactly as
`magnetCond` is (see `gt_add_two_sqrt_iff` with coefficient 1). -/
def crushCond (ce pe avg var : ℚ) : Prop :=
  (0 < avg - ce ∧ var < (avg - ce) ^ 2) ∧ (0 < avg - pe ∧ var < (avg - pe) ^ 2)

instance (ce pe avg var : ℚ) : Decidable (crushCond ce pe avg var) := by
  unfold crushCond; infer_instance

/-- A pocket dict of `_find_iv_crush_pockets`.  The source key `z_score`
holds `(ce_iv - window_avg) / window_std` when `window_std > 0` and 0
otherwise; the window variance is recorded here in its place (the field
`window_var`), from which that z-score is `-Real.sqrt ((window_avg - ce_iv)^2 / window_var)`
on the emitted pockets. -/
structure CrushPocket where
  strike : ℚ
  ce_iv : ℚ
  pe_iv : ℚ
  window_avg : ℚ
  window_var : ℚ
  crush_strength : ℚ
deriving DecidableEq, Repr

/-- `_find_iv_crush_pockets`. -/
def findIVCrushPockets (chain : Chain) : List CrushPocket :=
  let strikes := chain.strikes
  (List.range' 2 (strikes.length - 4)).filterMap (fun i =>
    let window_ivs := crushWindowIVs chain i
    if window_ivs ≠ [] then
      let s := strikes.getD i 0
      let current_ce_iv := (chain.lookup s).ceIV
      let current_pe_iv := (chain.lookup s).peIV
      let window_avg := npMean window_ivs
      let window_var := npVar window_ivs
      if crushCond current_ce_iv current_pe_iv window_avg window_var then
        some ⟨s, current_ce_iv, current_pe_iv, window_avg, window_var,
              (window_avg - current_ce_iv) / window_avg⟩
      else none
    else none)

/-- Python `min(strikes, key=...)`: the first element minimizing the key
(`none` on the empty list, where Python raises). -/
def pyMinBy (key : ℚ → ℚ) : List ℚ → Option ℚ
  | [] => none
  | x :: xs =>
    match pyMinBy key xs with
    | none => some x
    | some b => if key b < key x then some b else some x

/-- The `local_strikes` of `_identify_fear_zones` at index `i`: strikes
at index distance at most 2, index `i` itself excluded. -/
def fearLocalStrikes (chain : Chain) (i : ℕ) : List ℚ :=
  let strikes := chain.strikes
  ((List.range' (i - 2) (min strikes.length (i + 3) - (i - 2))).filter
    (fun j => j ≠ i)).map (fun j => strikes.getD j 0)

/-- The `local_ce_ivs` of `_identify_fear_zones`: positive call IVs of
the local strikes. -/
def fearLocalCEIVs (chain : Chain) (i : ℕ) : List ℚ :=
  ((fearLocalStrikes chain i).map (fun s => (chain.lookup s).ceIV)).filter (fun v => 0 < v)

/-- The `local_pe_ivs` of `_identify_fear_zones`. -/
def fearLocalPEIVs (chain : Chain) (i : ℕ) : List ℚ :=
  ((fearLocalStrikes chain i).map (fun s => (chain.lookup s).peIV)).filter (fun v => 0 < v)

/-- The `fear_type` tag of `_identify_fear_zones`. -/
inductive FearType where
  | CE_FEAR
  | PE_FEAR
deriving DecidableEq, Repr

/-- A zone dict of `_identify_fear_zones`. -/
structure FearZone where
  strike : ℚ
  fear_type : FearType
  strength : ℚ
  current_iv : ℚ
  local_avg : ℚ
deriving DecidableEq, Repr

/-- The loop body of `_identify_fear_zones` at index `i`: `none` exactly
on the `continue` paths. -/
def fearZoneAt (chain : Chain) (i : ℕ) : Option FearZone :=
  let strikes := chain.strikes
  let strike := strikes.getD i 0
  let ce_iv := (chain.lookup strike).ceIV
  let pe_iv := (chain.lookup strike).peIV
  let local_ce_ivs := fearLocalCEIVs chain i
  let local_pe_ivs := fearLocalPEIVs chain i
  if local_ce_ivs ≠ [] ∧ local_pe_ivs ≠ [] then
    let avg_local_ce := npMean local_ce_ivs
    let avg_local_pe := npMean local_pe_ivs
    if ce_iv > avg_local_ce * 1.3 then
      some ⟨strike, .CE_FEAR, (ce_iv - avg_local_ce) / avg_local_ce,
            max ce_iv pe_iv, max avg_local_ce avg_local_pe⟩
    else if pe_iv > avg_local_pe * 1.3 then
      some ⟨strike, .PE_FEAR, (pe_iv - avg_local_pe) / avg_local_pe,
            max ce_iv pe_iv, max avg_local_ce avg_local_pe⟩
    else none
  else none

/-- The result dict of `_identify_fear_zones`. -/
structure FearZones where
  above : List FearZone
  below : List FearZone
deriving DecidableEq, Repr

/-- `_identify_fear_zones`: scans the (up to) eleven indices around the
ATM index and partitions the flagged zones by side of spot. -/
def identifyFearZones (chain : Chain) (spot_price : ℚ) : FearZones :=
  let strikes := chain.strikes
  let atm_strike := (pyMinBy (fun x => |x - spot_price|) strikes).getD 0
  let atm_idx := strikes.indexOf atm_strike
  let zones := (List.range' (atm_idx - 5)
      (min strikes.length (atm_idx + 6) - (atm_idx - 5))).filterMap (fearZoneAt chain)
  ⟨zones.filter (fun z => z.strike > spot_price),
   zones.filter (fun z => ¬ z.strike > spot_price)⟩

/- ===== Theorems ===== -/

/-- Folding `trackStep` from any history within capacity keeps exactly the
last `track_period` records appended. -/
theorem foldl_trackStep {α : Type} (track_period : ℕ) (rs : List α) :
    ∀ s : List α, s.length ≤ track_period →
      rs.foldl (trackStep track_period) s =
        (s ++ rs).drop ((s ++ rs).length - track_period) := by
  induction rs with
  | nil =>
    intro s hs
    simp [Nat.sub_eq_zero_of_le hs]
  | cons r rs ih =>
    intro s hs
    rw [List.foldl_cons]
    by_cases hlen : s.length = track_period
    · have hstep : trackStep track_period s r = (s ++ [r]).tail := by
        simp [trackStep, hlen]
      have htl : ((s ++ [r]).tail).length ≤ track_period := by
        simp [hlen]
      rw [hstep, ih _ htl, ← List.drop_one,
        ← List.drop_append_of_le_length (by simp), List.drop_drop,
        List.append_assoc]
      congr 1
      simp [hlen]
      omega
    · have hlt : s.length < track_period := lt_of_le_of_ne hs hlen
      have hstep : trackStep track_period s r = s ++ [r] := by
        simp only [trackStep, List.length_append, List.length_singleton]
        rw [if_neg (by omega)]
      rw [hstep, ih _ (by simp; omega), List.append_assoc]
      simp

/-- C4: on one `OIMigrationAnalyzer` instance, after any sequence of
`analyze_migration` calls the `migration_history` is exactly the suffix of
the appended records of length at most `track_period`: the length bound
always holds, eviction removes the oldest record first, and the surviving
records keep their original order. -/
theorem C4_migration_history_fifo {α : Type} (track_period : ℕ) (rs : List α) :
    migrationHistory track_period rs = rs.drop (rs.length - track_period) ∧
      (migrationHistory track_period rs).length ≤ track_period := by
  have h := foldl_trackStep track_period rs [] (by simp)
  simp only [List.nil_append] at h
  refine ⟨h, ?_⟩
  unfold migrationHistory
  rw [h]
  simp
  omega

/-- C8: the time-phase function realizes exactly the half-open interval
map — every phase is closed at its left endpoint and open at its right
end, except `GAMMA_GAME_PHASE`, which is closed at 15:30; any time
outside 09:15–15:30 maps to `CLOSED`; and 10:30:00 exactly maps to
`MID_MORNING`, not `OPENING_PHASE`. -/
theorem C8_time_phase_boundaries (t : ℕ) :
    (getTimePhase t = .OPENING_PHASE ↔ tm 9 15 ≤ t ∧ t < tm 10 30) ∧
    (getTimePhase t = .MID_MORNING ↔ tm 10 30 ≤ t ∧ t < tm 11 30) ∧
    (getTimePhase t = .SELLER_COMFORT_WINDOW ↔ tm 11 30 ≤ t ∧ t < tm 13 30) ∧
    (getTimePhase t = .POST_LUNCH ↔ tm 13 30 ≤ t ∧ t < tm 14 30) ∧
    (getTimePhase t = .GAMMA_GAME_PHASE ↔ tm 14 30 ≤ t ∧ t ≤ tm 15 30) ∧
    (getTimePhase t = .CLOSED ↔ t < tm 9 15 ∨ tm 15 30 < t) ∧
    getTimePhase (tm 10 30) = .MID_MORNING := by
  unfold getTimePhase tm
  norm_num
  split_ifs <;> simp_all <;> omega

/-- Gauss closed form for the x-sum of the slope fit. -/
theorem two_sumX (n : ℕ) : 2 * sumX n = (n : ℚ) ^ 2 - n := by
  induction n with
  | zero => simp [sumX]
  | succ k ih =>
    have h : sumX (k + 1) = sumX k + k := by
      simp [sumX, List.range_succ]
    rw [h]
    push_cast
    push_cast at ih
    ring_nf
    ring_nf at ih
    linarith

/-- Closed form for the squared x-sum of the slope fit. -/
theorem six_sumX2 (n : ℕ) :
    6 * sumX2 n = 2 * (n : ℚ) ^ 3 - 3 * (n : ℚ) ^ 2 + n := by
  induction n with
  | zero => simp [sumX2]
  | succ k ih =>
    have h : sumX2 (k + 1) = sumX2 k + (k : ℚ) ^ 2 := by
      simp [sumX2, List.range_succ]
    rw [h]
    push_cast
    push_cast at ih
    ring_nf
    ring_nf at ih
    linarith

/-- The slope denominator `n * sum_x2 - sum_x ** 2` is positive for
series of length at least 2. -/
theorem slope_denom_pos (n : ℕ) (hn : 2 ≤ n) :
    0 < (n : ℚ) * sumX2 n - sumX n ^ 2 := by
  have h1 := two_sumX n
  have h2 := six_sumX2 n
  have key : 12 * ((n : ℚ) * sumX2 n - sumX n ^ 2) =
      (n : ℚ) ^ 2 * ((n : ℚ) ^ 2 - 1) := by
    linear_combination (2 * (n : ℚ)) * h2 - 3 * (2 * sumX n + (n : ℚ) ^ 2 - (n : ℚ)) * h1
  have hn' : (2 : ℚ) ≤ (n : ℚ) := by exact_mod_cast hn
  nlinarith [key, hn']

/-- `zipWith` against a constant list of matching length is a map. -/
theorem zipWith_replicate_len {α β γ : Type} (f : α → β → γ) (c : β) :
    ∀ xs : List α, List.zipWith f xs (List.replicate xs.length c) =
      xs.map (fun x => f x c) := by
  intro xs
  induction xs with
  | nil => rfl
  | cons x xs ih => simp [List.replicate_succ, ih]

/-- C9: for every input list of at least 2 values, the slope-fit
denominator `n * sum_x2 - sum_x ** 2` is nonzero (so `_calculate_slope`
performs no division by zero), and on a flat series (all values equal)
the computed slope is exactly 0. -/
theorem C9_slope_denominator_and_flat (values : List ℚ)
    (h2 : 2 ≤ values.length) :
    ((values.length : ℚ) * sumX2 values.length - sumX values.length ^ 2 ≠ 0) ∧
    (∀ c : ℚ, (∀ v ∈ values, v = c) → calculateSlope values = 0) := by
  constructor
  · exact ne_of_gt (slope_denom_pos values.length h2)
  · intro c hc
    have hrep : values = List.replicate values.length c :=
      List.eq_replicate_length.mpr hc
    have hsum : values.sum = (values.length : ℚ) * c := by
      conv_lhs => rw [hrep]
      simp [List.sum_replicate, nsmul_eq_mul]
    have hz : List.zipWith (fun (i : ℕ) (v : ℚ) => (i : ℚ) * v)
        (List.range values.length) (List.replicate values.length c) =
        (List.range values.length).map (fun (i : ℕ) => (i : ℚ) * c) := by
      have h := zipWith_replicate_len (fun (i : ℕ) (v : ℚ) => (i : ℚ) * v) c
        (List.range values.length)
      simpa using h
    have hmr := List.sum_map_mul_right (List.range values.length)
      (fun (i : ℕ) => (i : ℚ)) c
    have hxy : sumXY values = sumX values.length * c := by
      unfold sumXY
      conv_lhs => rw [hrep]
      rw [show (List.replicate values.length c).length = values.length by simp]
      rw [hz, hmr]
      rfl
    unfold calculateSlope
    rw [if_neg (by omega)]
    rw [hxy, hsum]
    ring_nf

/-- Witness for C9 at the flat series `[3, 3]`. -/
theorem C9_slope_denominator_and_flat_witness :
    2 ≤ ([(3 : ℚ), 3]).length ∧
      (((([(3 : ℚ), 3]).length : ℚ) * sumX2 ([(3 : ℚ), 3]).length -
          sumX ([(3 : ℚ), 3]).length ^ 2 ≠ 0) ∧
        (∀ c : ℚ, (∀ v ∈ [(3 : ℚ), 3], v = c) → calculateSlope [(3 : ℚ), 3] = 0)) :=
  ⟨by norm_num, C9_slope_denominator_and_flat [3, 3] (by norm_num)⟩

/-- Membership inversion for `identifySupports`: every produced level
comes from a chain entry passing the candidate test, with the recorded
strength formula. -/
theorem mem_identifySupports {chain : Chain} {l : Level}
    (hl : l ∈ identifySupports chain) :
    ∃ p ∈ chain, (p.2.peOI > p.2.ceOI * 1.5 ∧ p.2.peOI > 100000) ∧
      l = ⟨p.1, min (p.2.peOI / (p.2.ceOI + 1)) 5 / 5, p.2.peOI, p.2.ceOI⟩ := by
  unfold identifySupports at hl
  have h1 := List.mem_of_mem_take hl
  rw [List.mem_insertionSort] at h1
  rw [List.mem_filterMap] at h1
  obtain ⟨p, hp, hfp⟩ := h1
  refine ⟨p, hp, ?_⟩
  by_cases hcond : p.2.peOI > p.2.ceOI * 1.5 ∧ p.2.peOI > 100000
  · rw [if_pos hcond] at hfp
    exact ⟨hcond, (Option.some_injective _ hfp).symm⟩
  · rw [if_neg hcond] at hfp
    exact absurd hfp (by simp)

/-- Membership inversion for `identifyResistances`. -/
theorem mem_identifyResistances {chain : Chain} {l : Level}
    (hl : l ∈ identifyResistances chain) :
    ∃ p ∈ chain, (p.2.ceOI > p.2.peOI * 1.5 ∧ p.2.ceOI > 100000) ∧
      l = ⟨p.1, min (p.2.ceOI / (p.2.peOI + 1)) 5 / 5, p.2.peOI, p.2.ceOI⟩ := by
  unfold identifyResistances at hl
  have h1 := List.mem_of_mem_take hl
  rw [List.mem_insertionSort] at h1
  rw [List.mem_filterMap] at h1
  obtain ⟨p, hp, hfp⟩ := h1
  refine ⟨p, hp, ?_⟩
  by_cases hcond : p.2.ceOI > p.2.peOI * 1.5 ∧ p.2.ceOI > 100000
  · rw [if_pos hcond] at hfp
    exact ⟨hcond, (Option.some_injective _ hfp).symm⟩
  · rw [if_neg hcond] at hfp
    exact absurd hfp (by simp)

/-- The bound `0 ≤ min (a / (b + 1)) 5 / 5 ≤ 1` for non-negative `a`,
`b`. -/
theorem strength_formula_bounds (a b : ℚ) (ha : 0 ≤ a) (hb : 0 ≤ b) :
    0 ≤ min (a / (b + 1)) 5 / 5 ∧ min (a / (b + 1)) 5 / 5 ≤ 1 := by
  constructor
  · apply div_nonneg _ (by norm_num)
    exact le_min (div_nonneg ha (by linarith)) (by norm_num)
  · rw [div_le_one (by norm_num)]
    exact min_le_right _ _

/-- C6: on a well-formed snapshot, every level produced by support
identification (and symmetrically by resistance identification) has
`strength = min(dominant_oi / (other_oi + 1), 5) / 5` inside the closed
interval from 0 to 1. -/
theorem C6_level_strength_in_unit_interval (chain : Chain)
    (hwf : chain.WellFormed) :
    (∀ l ∈ identifySupports chain, 0 ≤ l.strength ∧ l.strength ≤ 1) ∧
    (∀ l ∈ identifyResistances chain, 0 ≤ l.strength ∧ l.strength ≤ 1) := by
  constructor
  · intro l hl
    obtain ⟨p, hp, _, hleq⟩ := mem_identifySupports hl
    obtain ⟨hce, hpe, -, -⟩ := hwf p hp
    rw [hleq]
    exact strength_formula_bounds p.2.peOI p.2.ceOI hpe hce
  · intro l hl
    obtain ⟨p, hp, _, hleq⟩ := mem_identifyResistances hl
    obtain ⟨hce, hpe, -, -⟩ := hwf p hp
    rw [hleq]
    exact strength_formula_bounds p.2.ceOI p.2.peOI hce hpe

/-- A well-formed one-strike snapshot with a support at 20000. -/
def c6Chain : Chain :=
  [(20000, ⟨some ⟨50000, 0⟩, some ⟨200000, 0⟩⟩)]

/-- Witness for C6 on `c6Chain`. -/
theorem C6_level_strength_in_unit_interval_witness :
    Chain.WellFormed c6Chain ∧
      ((∀ l ∈ identifySupports c6Chain, 0 ≤ l.strength ∧ l.strength ≤ 1) ∧
        (∀ l ∈ identifyResistances c6Chain, 0 ≤ l.strength ∧ l.strength ≤ 1)) :=
  ⟨by unfold Chain.WellFormed; decide,
   C6_level_strength_in_unit_interval c6Chain (by unfold Chain.WellFormed; decide)⟩

/-- C10: at or past normalized session time 0.8, when no strike within
100 points of spot has combined open interest above 1,000,000, pinning
pressure is exactly 0.2 with an empty target list and no `strong_pin`
key — an outcome distinct both from the fixed below-0.8 value 0.3 and
from the high-OI formula `min(0.3 + (t - 0.8) * 2, 0.9)`. -/
theorem C10_pinning_no_qualifying_strike (chain : Chain) (spot_price t : ℚ)
    (ht : 0.8 ≤ t)
    (hno : ∀ p ∈ chain, |p.1 - spot_price| < 100 → p.2.totalOI ≤ 1000000) :
    calculatePinningPressure chain spot_price t = ⟨0.2, [], none⟩ ∧
      (0.2 : ℚ) < 0.3 ∧ (0.2 : ℚ) < min (0.3 + (t - 0.8) * 2) 0.9 := by
  refine ⟨?_, by norm_num, lt_min (by linarith) (by norm_num)⟩
  unfold calculatePinningPressure
  rw [if_neg (not_lt.mpr ht)]
  have hnil : chain.filterMap (fun p =>
      if |p.1 - spot_price| < 100 then
        if p.2.totalOI > 1000000 then
          some (⟨p.1, p.2.totalOI, |p.1 - spot_price|⟩ : NearbyStrike)
        else none
      else none) = [] := by
    rw [List.filterMap_eq_nil_iff]
    intro p hp
    by_cases hnear : |p.1 - spot_price| < 100
    · rw [if_pos hnear, if_neg (not_lt.mpr (hno p hp hnear))]
    · rw [if_neg hnear]
  simp only [hnil, List.insertionSort]
  simp

/-- A snapshot with moderate open interest near spot. -/
def c10Chain : Chain :=
  [(20000, ⟨some ⟨300000, 0⟩, some ⟨400000, 0⟩⟩)]

/-- Witness for C10 on `c10Chain` at spot 20000 and normalized time
0.9. -/
theorem C10_pinning_no_qualifying_strike_witness :
    (0.8 : ℚ) ≤ 0.9 ∧
      (∀ p ∈ c10Chain, |p.1 - (20000 : ℚ)| < 100 → p.2.totalOI ≤ 1000000) ∧
      (calculatePinningPressure c10Chain 20000 0.9 = ⟨0.2, [], none⟩ ∧
        (0.2 : ℚ) < 0.3 ∧ (0.2 : ℚ) < min (0.3 + ((0.9 : ℚ) - 0.8) * 2) 0.9) :=
  ⟨by norm_num,
   by
     intro p hp
     rw [c10Chain, List.mem_singleton] at hp
     subst hp
     intro h
     norm_num [StrikeData.totalOI, StrikeData.ceOI, StrikeData.peOI],
   C10_pinning_no_qualifying_strike c10Chain 20000 0.9 (by norm_num)
     (by
       intro p hp
       rw [c10Chain, List.mem_singleton] at hp
       subst hp
       intro h
       norm_num [StrikeData.totalOI, StrikeData.ceOI, StrikeData.peOI])⟩

/-- C7: every entry of every aligned list of the alignment analysis —
supports, resistances, and magnets alike — arises from a near-expiry
level and a far-expiry level whose strikes differ by at most 50. -/
theorem C7_alignment_within_tolerance (current next_exp : Chain) :
    (∀ e ∈ alignedSupports current next_exp,
        ∃ cs ∈ identifySupports current, ∃ ns ∈ identifySupports next_exp,
          e.strike = cs.strike ∧ e.next_strength = ns.strength ∧
            |cs.strike - ns.strike| ≤ 50) ∧
    (∀ e ∈ alignedResistances current next_exp,
        ∃ cr ∈ identifyResistances current, ∃ nr ∈ identifyResistances next_exp,
          e.strike = cr.strike ∧ e.next_strength = nr.strength ∧
            |cr.strike - nr.strike| ≤ 50) ∧
    (∀ e ∈ alignedMagnets current next_exp,
        ∃ cm ∈ identifyMagnets current, ∃ nm ∈ identifyMagnets next_exp,
          e.strike = cm.strike ∧ e.next_strength = nm.total_oi ∧
            |cm.strike - nm.strike| ≤ 50) := by
  refine ⟨?_, ?_, ?_⟩
  · intro e he
    rw [alignedSupports, List.mem_flatMap] at he
    obtain ⟨cs, hcs, he⟩ := he
    rw [List.mem_map] at he
    obtain ⟨ns, hns, hee⟩ := he
    rw [List.mem_filter] at hns
    exact ⟨cs, hcs, ns, hns.1, by rw [← hee], by rw [← hee], by simpa using hns.2⟩
  · intro e he
    rw [alignedResistances, List.mem_flatMap] at he
    obtain ⟨cr, hcr, he⟩ := he
    rw [List.mem_map] at he
    obtain ⟨nr, hnr, hee⟩ := he
    rw [List.mem_filter] at hnr
    exact ⟨cr, hcr, nr, hnr.1, by rw [← hee], by rw [← hee], by simpa using hnr.2⟩
  · intro e he
    rw [alignedMagnets, List.mem_flatMap] at he
    obtain ⟨cm, hcm, he⟩ := he
    rw [List.mem_map] at he
    obtain ⟨nm, hnm, hee⟩ := he
    rw [List.mem_filter] at hnm
    exact ⟨cm, hcm, nm, hnm.1, by rw [← hee], by rw [← hee], by simpa using hnm.2⟩

/-- A malformed snapshot: the strike 20000 carries a negative call open
interest, violating the acquisition collaborator's contract. -/
def c3Chain : Chain :=
  [(20000, ⟨some ⟨-50, 0⟩, some ⟨200000, 0⟩⟩)]

/-- C3: support identification on a snapshot with negative open interest
returns an ordinary result instead of surfacing a hard error — the
negative call OI flows into the strength formula and yields a level of
negative strength, silently outside the documented range. -/
theorem C3_negative_oi_silently_processed :
    identifySupports c3Chain =
      [⟨20000, min ((200000 : ℚ) / (-50 + 1)) 5 / 5, 200000, -50⟩] ∧
    min ((200000 : ℚ) / (-50 + 1)) 5 / 5 < 0 := by
  constructor
  · unfold identifySupports c3Chain
    norm_num [StrikeData.peOI, StrikeData.ceOI, List.insertionSort,
      List.orderedInsert, List.filterMap_cons, List.filterMap_nil,
      List.take_succ_cons, List.take_nil, min_def]
  · rw [min_def]
    norm_num

/-- Comparison against a scaled square root, squared: for `k > 0` and
`v ≥ 0`, `k * sqrt v < x` iff `x` is positive and `k^2 * v < x^2`. -/
theorem mul_sqrt_lt_iff (k v x : ℝ) (hk : 0 < k) (hv : 0 ≤ v) :
    k * Real.sqrt v < x ↔ 0 < x ∧ k ^ 2 * v < x ^ 2 := by
  have hs : 0 ≤ k * Real.sqrt v := mul_nonneg hk.le (Real.sqrt_nonneg v)
  have hsq : (k * Real.sqrt v) ^ 2 = k ^ 2 * v := by
    rw [mul_pow, Real.sq_sqrt hv]
  constructor
  · intro h
    have hx : 0 < x := lt_of_le_of_lt hs h
    refine ⟨hx, ?_⟩
    calc k ^ 2 * v = (k * Real.sqrt v) ^ 2 := hsq.symm
    _ < x ^ 2 := by nlinarith
  · rintro ⟨hx, h⟩
    nlinarith [hsq, hs, hx, h]

/-- The population variance is non-negative. -/
theorem npVar_nonneg (xs : List ℚ) : 0 ≤ npVar xs := by
  unfold npVar npMean
  apply div_nonneg
  · apply List.sum_nonneg
    intro x hx
    rw [List.mem_map] at hx
    obtain ⟨y, -, rfl⟩ := hx
    positivity
  · positivity

/-- A zero population variance forces every element to equal the mean. -/
theorem npVar_eq_zero_all_mean {xs : List ℚ} (h : npVar xs = 0) :
    ∀ x ∈ xs, x = npMean xs := by
  intro x hx
  have hlen : (0 : ℚ) < (xs.map (fun y => (y - npMean xs) ^ 2)).length := by
    simp only [List.length_map]
    have : xs ≠ [] := List.ne_nil_of_mem hx
    have : 0 < xs.length := List.length_pos.mpr this
    exact_mod_cast this
  have hsum : (xs.map (fun y => (y - npMean xs) ^ 2)).sum = 0 := by
    unfold npVar npMean at h
    rw [div_eq_zero_iff] at h
    rcases h with h | h
    · exact h
    · exact absurd h (by positivity)
  have hmem : (x - npMean xs) ^ 2 ∈ xs.map (fun y => (y - npMean xs) ^ 2) :=
    List.mem_map.mpr ⟨x, hx, rfl⟩
  have hnn : ∀ z ∈ xs.map (fun y => (y - npMean xs) ^ 2), 0 ≤ z := by
    intro z hz
    rw [List.mem_map] at hz
    obtain ⟨y, -, rfl⟩ := hz
    positivity
  have hle : (x - npMean xs) ^ 2 ≤ 0 := hsum ▸ List.single_le_sum hnn _ hmem
  have : (x - npMean xs) ^ 2 = 0 := le_antisymm hle (by positivity)
  have h2ne : (2 : ℕ) ≠ 0 := by norm_num
  have := (pow_eq_zero_iff h2ne).mp this
  linarith

/-- `total_oi` has one entry per strike. -/
theorem totalOIs_length (chain : Chain) :
    (totalOIs chain).length = chain.strikes.length := by
  simp [totalOIs]

/-- The current strike's total OI lies inside its own window. -/
theorem totalOI_mem_windowOI (chain : Chain) (w i : ℕ) (hw : w ≤ i)
    (hi : i < (totalOIs chain).length) :
    (totalOIs chain).getD i 0 ∈ windowOI chain w i := by
  have hdl : w < ((totalOIs chain).drop (i - w)).length := by
    simp only [List.length_drop]
    omega
  have hlen : w < (windowOI chain w i).length := by
    simp only [windowOI, List.length_take, List.length_drop]
    omega
  have hidx : (windowOI chain w i).get ⟨w, hlen⟩ = (totalOIs chain).getD i 0 := by
    have hiw : i - w + w = i := by omega
    rw [List.get_eq_getElem]
    unfold windowOI
    rw [List.getElem_take, List.getElem_drop, List.getD_eq_getElem _ 0 hi]
    simp_rw [hiw]
  rw [← hidx]
  exact List.get_mem _ _ hlen

/-- `magnetCond` restated against the source's standard-deviation form:
`oi > mean + 2 * std` with `std = sqrt var`. -/
theorem magnetCond_iff_real (oi m v : ℚ) (hv : 0 ≤ v) :
    magnetCond oi m v ↔ ((m : ℝ) + 2 * Real.sqrt v < (oi : ℝ)) := by
  have h := mul_sqrt_lt_iff 2 (v : ℝ) ((oi : ℝ) - (m : ℝ)) (by norm_num)
    (by exact_mod_cast hv)
  unfold magnetCond
  constructor
  · rintro ⟨h1, h2⟩
    have h2r : ((4 * v : ℚ) : ℝ) < (((oi - m) ^ 2 : ℚ) : ℝ) := by exact_mod_cast h2
    push_cast at h2r
    have := h.mpr ⟨by exact_mod_cast h1, by nlinarith⟩
    linarith
  · intro hlt
    have := h.mp (by linarith)
    obtain ⟨h1, h2⟩ := this
    constructor
    · exact_mod_cast h1
    · have : ((4 * v : ℚ) : ℝ) < (((oi - m) ^ 2 : ℚ) : ℝ) := by push_cast; nlinarith
      exact_mod_cast this

/-- Membership inversion for `magnetCandidates`: under distinct strikes,
the strike at window position `i` is flagged exactly when the loop
condition holds at `i`. -/
theorem magnetCandidates_flag_iff (chain : Chain) (w i : ℕ) (hw : w ≤ i)
    (hi : i + w < chain.strikes.length) (hnd : chain.strikes.Nodup) :
    (∃ mg ∈ magnetCandidates chain w, mg.strike = chain.strikes.getD i 0) ↔
      magnetCond ((totalOIs chain).getD i 0) (windowMean chain w i)
        (windowVar chain w i) := by
  constructor
  · rintro ⟨mg, hmg, hstrike⟩
    unfold magnetCandidates at hmg
    rw [List.mem_filterMap] at hmg
    obtain ⟨j, hj, hfj⟩ := hmg
    rw [List.mem_range'_1] at hj
    by_cases hcond : magnetCond ((totalOIs chain).getD j 0) (windowMean chain w j)
        (windowVar chain w j)
    · rw [if_pos hcond] at hfj
      have hmgj : mg.strike = chain.strikes.getD j 0 := by
        rw [← Option.some_injective _ hfj]
      have hji : j = i := by
        have hjlt : j < chain.strikes.length := by omega
        have hilt : i < chain.strikes.length := by omega
        rw [hmgj] at hstrike
        rw [List.getD_eq_getElem _ 0 hjlt, List.getD_eq_getElem _ 0 hilt] at hstrike
        exact hnd.getElem_inj_iff.mp hstrike
      rw [← hji]
      exact hcond
    · rw [if_neg hcond] at hfj
      exact absurd hfj (by simp)
  · intro hcond
    refine ⟨⟨chain.strikes.getD i 0, (totalOIs chain).getD i 0,
      (if 0 < windowVar chain w i then
        ((totalOIs chain).getD i 0 - windowMean chain w i) ^ 2 / windowVar chain w i
      else 0),
      (if 0 < windowMean chain w i then
        (totalOIs chain).getD i 0 / windowMean chain w i
      else 1)⟩, ?_, rfl⟩
    unfold magnetCandidates
    rw [List.mem_filterMap]
    refine ⟨i, ?_, ?_⟩
    · rw [List.mem_range'_1]
      omega
    · rw [if_pos hcond]

/-- C5: for a strike with `w` neighbors on each side (distinct strikes),
the loop flags it as a magnet candidate exactly when its total OI
strictly exceeds the window mean plus two window standard deviations;
consequently a strike whose window deviation is zero and whose OI is at
most the window mean is never flagged, and the flag condition forces a
positive window variance, so the guarded z-score division
(`z_score = 0` when `std = 0`) is never reached with `std = 0`. -/
theorem C5_magnet_flag_iff_two_sigma (chain : Chain) (w i : ℕ) (hw : w ≤ i)
    (hi : i + w < chain.strikes.length) (hnd : chain.strikes.Nodup) :
    ((∃ mg ∈ magnetCandidates chain w, mg.strike = chain.strikes.getD i 0) ↔
        ((windowMean chain w i : ℝ) + 2 * Real.sqrt (windowVar chain w i) <
          ((totalOIs chain).getD i 0 : ℝ))) ∧
    (windowVar chain w i = 0 → (totalOIs chain).getD i 0 ≤ windowMean chain w i →
        ¬∃ mg ∈ magnetCandidates chain w, mg.strike = chain.strikes.getD i 0) ∧
    (magnetCond ((totalOIs chain).getD i 0) (windowMean chain w i)
        (windowVar chain w i) → 0 < windowVar chain w i) := by
  have hv : 0 ≤ windowVar chain w i := npVar_nonneg _
  have hiff := (magnetCandidates_flag_iff chain w i hw hi hnd).trans
    (magnetCond_iff_real _ _ _ hv)
  have hforce : magnetCond ((totalOIs chain).getD i 0) (windowMean chain w i)
      (windowVar chain w i) → 0 < windowVar chain w i := by
    intro hcond
    rcases lt_or_eq_of_le hv with h | h
    · exact h
    · exfalso
      have hmem : (totalOIs chain).getD i 0 ∈ windowOI chain w i := by
        apply totalOI_mem_windowOI chain w i hw
        rw [totalOIs_length]
        omega
      have hallm : ∀ x ∈ windowOI chain w i, x = npMean (windowOI chain w i) :=
        npVar_eq_zero_all_mean h.symm
      have := hallm _ hmem
      obtain ⟨h1, -⟩ := hcond
      rw [windowMean] at h1
      rw [this] at h1
      simp at h1
  refine ⟨hiff, ?_, hforce⟩
  intro hvz hle hex
  have hcond := (magnetCandidates_flag_iff chain w i hw hi hnd).mp hex
  have hpos := hforce hcond
  rw [hvz] at hpos
  exact lt_irrefl 0 hpos

/-- A seven-strike snapshot with a single total-OI spike at 400. -/
def c5Chain : Chain :=
  [(100, ⟨none, none⟩), (200, ⟨none, none⟩), (300, ⟨none, none⟩),
   (400, ⟨some ⟨700, 0⟩, none⟩), (500, ⟨none, none⟩), (600, ⟨none, none⟩),
   (700, ⟨none, none⟩)]

/-- Witness for C5 on `c5Chain` with window half-width 3 at index 3. -/
theorem C5_magnet_flag_iff_two_sigma_witness :
    3 ≤ 3 ∧ 3 + 3 < c5Chain.strikes.length ∧ c5Chain.strikes.Nodup ∧
    (((∃ mg ∈ magnetCandidates c5Chain 3, mg.strike = c5Chain.strikes.getD 3 0) ↔
        ((windowMean c5Chain 3 3 : ℝ) + 2 * Real.sqrt (windowVar c5Chain 3 3) <
          ((totalOIs c5Chain).getD 3 0 : ℝ))) ∧
      (windowVar c5Chain 3 3 = 0 →
          (totalOIs c5Chain).getD 3 0 ≤ windowMean c5Chain 3 3 →
          ¬∃ mg ∈ magnetCandidates c5Chain 3,
            mg.strike = c5Chain.strikes.getD 3 0) ∧
      (magnetCond ((totalOIs c5Chain).getD 3 0) (windowMean c5Chain 3 3)
          (windowVar c5Chain 3 3) → 0 < windowVar c5Chain 3 3)) :=
  ⟨le_refl 3, by decide, by decide,
   C5_magnet_flag_iff_two_sigma c5Chain 3 3 (le_refl 3) (by decide) (by decide)⟩

/-- The modelled nearest-magnet lookup returns `none` exactly on an empty
magnet list. -/
theorem findNearestMagnet_eq_none_iff (spot : ℚ) (ms : List Magnet) :
    findNearestMagnet spot ms = none ↔ ms = [] := by
  cases ms with
  | nil => simp [findNearestMagnet]
  | cons m ms =>
    simp only [findNearestMagnet]
    cases findNearestMagnet spot ms with
    | none => simp
    | some b =>
      dsimp only
      split_ifs <;> simp

/-- The modelled nearest-magnet lookup returns a member of the list that
minimizes the distance to spot, and every strictly earlier element is
strictly farther (first occurrence wins ties). -/
theorem findNearestMagnet_spec (spot : ℚ) :
    ∀ (ms : List Magnet) (mg : Magnet), findNearestMagnet spot ms = some mg →
      mg ∈ ms ∧ (∀ m ∈ ms, |mg.strike - spot| ≤ |m.strike - spot|) ∧
      ∃ pre post, ms = pre ++ mg :: post ∧
        ∀ m ∈ pre, |mg.strike - spot| < |m.strike - spot| := by
  intro ms
  induction ms with
  | nil => intro mg h; simp [findNearestMagnet] at h
  | cons m ms ih =>
    intro mg h
    rw [findNearestMagnet] at h
    cases hrec : findNearestMagnet spot ms with
    | none =>
      rw [hrec] at h
      dsimp only at h
      obtain rfl : m = mg := by simpa using h
      have hms : ms = [] := (findNearestMagnet_eq_none_iff spot ms).mp hrec
      subst hms
      exact ⟨List.mem_singleton_self m, by simp, [], [], by simp, by simp⟩
    | some b =>
      rw [hrec] at h
      dsimp only at h
      by_cases hcmp : |b.strike - spot| < |m.strike - spot|
      · rw [if_pos hcmp] at h
        obtain rfl : b = mg := by simpa using h
        obtain ⟨hmem, hmin, pre, post, hsplit, hpre⟩ := ih b hrec
        refine ⟨List.mem_cons_of_mem _ hmem, ?_, m :: pre, post, ?_, ?_⟩
        · intro x hx
          rcases List.mem_cons.mp hx with rfl | hx
          · exact le_of_lt hcmp
          · exact hmin x hx
        · rw [List.cons_append, hsplit]
        · intro x hx
          rcases List.mem_cons.mp hx with rfl | hx
          · exact hcmp
          · exact hpre x hx
      · rw [if_neg hcmp] at h
        obtain rfl : m = mg := by simpa using h
        obtain ⟨hmem, hmin, -⟩ := ih b hrec
        have hle : |m.strike - spot| ≤ |b.strike - spot| := not_lt.mp hcmp
        refine ⟨List.mem_cons_self _ _, ?_, [], ms, by simp, by simp⟩
        intro x hx
        rcases List.mem_cons.mp hx with rfl | hx
        · exact le_refl _
        · exact le_trans hle (hmin x hx)

/-- C2: in the result of `find_magnets_and_gaps`, `spot_in_gap` is true
exactly when spot lies strictly between some reported gap's bounds, and
`nearest_magnet` is the detected magnet minimizing the absolute strike
distance to spot, ties broken by first occurrence in the magnet list
(`none` exactly when no magnets were detected). -/
theorem C2_spot_in_gap_and_nearest_magnet (chain : Chain) (spot_price : ℚ)
    (w : ℕ) :
    ((findMagnetsAndGaps chain spot_price w).spot_in_gap = true ↔
        ∃ g ∈ (findMagnetsAndGaps chain spot_price w).gaps,
          g.from_strike < spot_price ∧ spot_price < g.to_strike) ∧
    ((findMagnetsAndGaps chain spot_price w).nearest_magnet = none ↔
        (findMagnetsAndGaps chain spot_price w).magnets = []) ∧
    (∀ mg, (findMagnetsAndGaps chain spot_price w).nearest_magnet = some mg →
        mg ∈ (findMagnetsAndGaps chain spot_price w).magnets ∧
        (∀ m ∈ (findMagnetsAndGaps chain spot_price w).magnets,
            |mg.strike - spot_price| ≤ |m.strike - spot_price|) ∧
        ∃ pre post,
          (findMagnetsAndGaps chain spot_price w).magnets = pre ++ mg :: post ∧
            ∀ m ∈ pre, |mg.strike - spot_price| < |m.strike - spot_price|) := by
  have hmag : (findMagnetsAndGaps chain spot_price w).magnets =
      findLocalMaxima chain w := rfl
  have hgap : (findMagnetsAndGaps chain spot_price w).gaps =
      findLowOIGaps chain (findLocalMaxima chain w) := rfl
  have hsg : (findMagnetsAndGaps chain spot_price w).spot_in_gap =
      isSpotInGap spot_price (findLowOIGaps chain (findLocalMaxima chain w)) := rfl
  have hnm : (findMagnetsAndGaps chain spot_price w).nearest_magnet =
      findNearestMagnet spot_price (findLocalMaxima chain w) := rfl
  refine ⟨?_, ?_, ?_⟩
  · rw [hsg, hgap]
    simp [isSpotInGap, List.any_eq_true]
  · rw [hnm, hmag]
    exact findNearestMagnet_eq_none_iff spot_price (findLocalMaxima chain w)
  · intro mg hmg
    rw [hnm] at hmg
    rw [hmag]
    exact findNearestMagnet_spec spot_price (findLocalMaxima chain w) mg hmg

/-- C1 (amended): zero IVs are excluded from the pooled window means of
`iv_crush_pockets` and from the local means of `fear_zones`, and
`one_sided_skew` emits an entry only when both legs' IVs are positive —
but not in all five sub-analyses (see the counterexample for
`iv_gradient` and `magnet_skew`). -/
theorem C1_zero_iv_excluded_in_crush_fear_onesided (chain : Chain) :
    (∀ i : ℕ, ∀ v ∈ crushWindowIVs chain i, 0 < v) ∧
    (∀ i : ℕ, (∀ v ∈ fearLocalCEIVs chain i, 0 < v) ∧
      (∀ v ∈ fearLocalPEIVs chain i, 0 < v)) ∧
    (∀ atm_strike : ℚ, ∀ e ∈ analyzeOneSidedSkew chain atm_strike,
      0 < e.2.ce_iv ∧ 0 < e.2.pe_iv) := by
  refine ⟨?_, ?_, ?_⟩
  · intro i v hv
    unfold crushWindowIVs at hv
    rw [List.mem_flatMap] at hv
    obtain ⟨s, -, hv⟩ := hv
    rcases List.mem_append.mp hv with h | h
    · by_cases hc : 0 < (chain.lookup s).ceIV
      · rw [if_pos hc, List.mem_singleton] at h
        exact h ▸ hc
      · rw [if_neg hc] at h
        exact absurd h (List.not_mem_nil v)
    · by_cases hc : 0 < (chain.lookup s).peIV
      · rw [if_pos hc, List.mem_singleton] at h
        exact h ▸ hc
      · rw [if_neg hc] at h
        exact absurd h (List.not_mem_nil v)
  · intro i
    constructor <;> intro v hv
    · unfold fearLocalCEIVs at hv
      simpa using (List.mem_filter.mp hv).2
    · unfold fearLocalPEIVs at hv
      simpa using (List.mem_filter.mp hv).2
  · intro atm_strike e he
    simp only [analyzeOneSidedSkew] at he
    rw [List.mem_filterMap] at he
    obtain ⟨idx, -, hf⟩ := he
    by_cases hc : 0 < (chain.lookup (chain.strikes.getD idx 0)).ceIV ∧
        0 < (chain.lookup (chain.strikes.getD idx 0)).peIV
    · rw [if_pos hc] at hf
      obtain rfl := Option.some_injective _ hf
      exact hc
    · rw [if_neg hc] at hf
      exact absurd hf (by simp)

/-- A five-strike snapshot whose call leg at 100 is present with IV 0:
the left side of the ATM strike 300 then pools the IVs 0 and 10. -/
def c1Chain : Chain :=
  [(100, ⟨some ⟨1000, 0⟩, none⟩),
   (200, ⟨some ⟨1000, 10⟩, none⟩),
   (300, ⟨some ⟨1000, 12⟩, some ⟨1000, 12⟩⟩),
   (400, ⟨none, some ⟨1000, 10⟩⟩),
   (500, ⟨none, some ⟨1000, 10⟩⟩)]

/-- C1 counterexample: in `iv_gradient` a present call leg with IV 0 is
included in the left mean, so the computed asymmetry is 5, not the 0 the
positive-only reading yields; and in `magnet_skew` the surrounding call
IVs likewise contain the 0. -/
theorem C1_counterexample_zero_in_means :
    (0 : ℚ) ∈ leftIVs c1Chain 300 ∧
    (calculateIVGradient c1Chain 300).asymmetry = 5 ∧
    asymmetrySpec c1Chain 300 = 0 ∧
    (calculateIVGradient c1Chain 300).asymmetry ≠ asymmetrySpec c1Chain 300 ∧
    (0 : ℚ) ∈ surroundingCEIVs c1Chain 300 := by
  have hL : leftIVs c1Chain 300 = [0, 10] := by decide
  have hR : rightIVs c1Chain 300 = [10, 10] := by decide
  have hasym : (calculateIVGradient c1Chain 300).asymmetry = 5 := by
    unfold calculateIVGradient
    dsimp only
    rw [hL, hR]
    rw [if_pos (⟨by simp, by simp⟩ : ¬([(0 : ℚ), 10] = []) ∧ ¬([(10 : ℚ), 10] = []))]
    rw [show npMean [(0 : ℚ), 10] = 5 by norm_num [npMean]]
    rw [show npMean [(10 : ℚ), 10] = 10 by norm_num [npMean]]
    rw [abs_of_nonpos (by norm_num)]
    norm_num
  have hspec : asymmetrySpec c1Chain 300 = 0 := by
    unfold asymmetrySpec
    rw [hL, hR]
    norm_num [npMean, List.filter]
  refine ⟨by rw [hL]; simp, hasym, hspec, ?_, by decide⟩
  rw [hasym, hspec]
  norm_num

end OptionSignals

